import Mathlib

/-!
Verification of the Pilgrim Syntax Generator (`psg/cli.py`).

The grammar is an XML document: the root holds `ref` elements (rules), each
rule holds `p` elements (paragraphs), and a paragraph holds literal text mixed
with `xref` elements pointing at rules by id; an `xref` carries an optional
trailing literal (`tail`).  `Generator.load_grammar` indexes the rules in a
Python dict; `Generator.parse` recursively expands a node, appending text
fragments to `self.pieces`; `Generator.get_default_source` picks a start rule
among rules that are never `xref` targets.

The embedding below mirrors that code.  The element tree is the closed set of
node kinds actually dispatched on (`parse_p` / `parse_xref`); the Python dict
is an association list with in-place update on duplicate keys; Python's global
`random.choice` is an oracle stream `rands : Nat → Nat` consumed one value per
choice, a value `k` selecting index `k % length`; the unbounded recursion of
`Generator.parse` is a fuel-indexed interpreter where fuel bounds the
recursion depth (running out of fuel is the distinguished `outOfFuel` result,
never produced by the Python code on terminating runs).  Failure modes of the
Python code are the constructors of `GenError`: `unknownRule` is the
`AttributeError` raised when `self.refs.get(id)` returns `None`,
`emptyChoice` the `IndexError` of `choice` on an empty sequence, and
`noStandaloneRule` the `ValueError` of `get_default_source`.
-/

namespace PSG

/-- A node of the grammar element tree: a paragraph `<p>` with leading text
and child nodes, or a cross reference `<xref id=...>` with its trailing
literal (`tail` in lxml). -/
inductive Node where
  | p (text : Option String) (children : List Node)
  | xref (id : String) (tail : Option String)

/-- A rule: a `<ref id=...>` element together with its child elements
(normally paragraphs). -/
structure Rule where
  id : String
  children : List Node

/-- The parsed grammar document root: its `ref` children in document order
(`self.grammar.findall("ref")`). -/
abbrev GrammarDoc := List Rule

/-- Python dict assignment `d[k] = v`: replace the value in place when the
key is present, append the binding otherwise. -/
def insertRef (d : List (String × Rule)) (k : String) (v : Rule) :
    List (String × Rule) :=
  match d with
  | [] => [(k, v)]
  | (k', v') :: rest =>
      if k' = k then (k, v) :: rest else (k', v') :: insertRef rest k v

/-- `Generator.load_grammar`: `for ref in grammar.findall("ref"):
self.refs[ref.get("id")] = ref`. -/
def buildRefs (g : GrammarDoc) : List (String × Rule) :=
  g.foldl (fun d r => insertRef d r.id r) []

/-- Python dict lookup `d.get(k)` on the association list (keys are unique
by construction of `insertRef`, so first match suffices). -/
def dictGet (d : List (String × Rule)) (k : String) : Option Rule :=
  match d with
  | [] => none
  | (k', v) :: rest => if k' = k then some v else dictGet rest k

mutual
/-- The `xref` target ids occurring anywhere in a node's subtree, in document
order (`findall(".//xref")` restricted to this subtree). -/
def nodeXrefIds : Node → List String
  | .p _ children => nodesXrefIds children
  | .xref id _ => [id]

/-- `nodeXrefIds` over a list of sibling nodes. -/
def nodesXrefIds : List Node → List String
  | [] => []
  | c :: cs => nodeXrefIds c ++ nodesXrefIds cs
end

/-- All `xref` target ids of the document (`grammar.findall(".//xref")`). -/
def collectXrefIds : GrammarDoc → List String
  | [] => []
  | r :: rs => nodesXrefIds r.children ++ collectXrefIds rs

/-- The keys of the rule index, in first-insertion order
(`self.refs.keys()`). -/
def refKeys (g : GrammarDoc) : List String :=
  (buildRefs g).map Prod.fst

/-- `get_default_source`'s candidate list:
`[e for e in self.refs.keys() if e not in xrefs]`. -/
def standaloneRefs (g : GrammarDoc) : List String :=
  (refKeys g).filter (fun e => !(collectXrefIds g).contains e)

/-- The failure modes of generation, named after the Python exceptions they
embed (see the module doc comment). -/
inductive GenError where
  | unknownRule (id : String)
  | emptyChoice
  | noStandaloneRule
  | outOfFuel

/-- `random.choice(l)` driven by an oracle value `k`: uniform selection is
modelled by `k % l.length`, and the empty sequence yields `none`
(`IndexError` in Python). -/
def choiceL {α : Type} (l : List α) (k : Nat) : Option α :=
  l.get? (k % l.length)

/-- `Generator.get_default_source` with the random oracle value `k`: choose
among rule ids never used as an `xref` target; `ValueError` when there is no
such id.  (The Python code returns the string `<xref id="..."/>`; the chosen
id determines it.) -/
def getDefaultSource (g : GrammarDoc) (k : Nat) : Except GenError String :=
  match choiceL (standaloneRefs g) k with
  | none => .error .noStandaloneRule
  | some id => .ok id

/-- The mutable attributes of a `Generator` object touched by loading and
expansion, plus `ridx`, the read position in the global random stream. -/
structure GenState where
  grammar : GrammarDoc
  refs : List (String × Rule)
  source : Node
  pieces : List String
  ridx : Nat
  cap : Bool

/-- Sequential processing of sibling nodes
(`for child in node.iterchildren(): self.parse(child)`), aborting at the
first error. -/
def runSeq (f : GenState → Node → Except GenError GenState) :
    List Node → GenState → Except GenError GenState
  | [], s => .ok s
  | c :: cs, s =>
      match f s c with
      | .error e => .error e
      | .ok s1 => runSeq f cs s1

/-- `Generator.parse`, fuel-indexed: dispatch on the node tag.  `parse_p`
appends `node.text or ""` then parses the children in order; `parse_xref`
looks the target up in `self.refs`, expands one randomly chosen child of that
rule, then appends `node.tail or ""`. -/
def parseNode (rands : Nat → Nat) : Nat → Node → GenState → Except GenError GenState
  | 0, _, _ => .error .outOfFuel
  | fuel + 1, .p text children, s =>
      runSeq (fun s' c => parseNode rands fuel c s') children
        { s with pieces := s.pieces ++ [text.getD ""] }
  | fuel + 1, .xref id tl, s =>
      match dictGet s.refs id with
      | none => .error (.unknownRule id)
      | some r =>
          match choiceL r.children (rands s.ridx) with
          | none => .error .emptyChoice
          | some c =>
              match parseNode rands fuel c { s with ridx := s.ridx + 1 } with
              | .error e => .error e
              | .ok s2 => .ok { s2 with pieces := s2.pieces ++ [tl.getD ""] }

/-- `parse_p`'s loop over the children, with the fuel the children are
expanded at. -/
def parseKids (rands : Nat → Nat) (fuel : Nat) (cs : List Node) (s : GenState) :
    Except GenError GenState :=
  runSeq (fun s' c => parseNode rands fuel c s') cs s

/-- `Generator.reset`: clear the accumulator and the capitalize flag. -/
def reset (s : GenState) : GenState :=
  { s with pieces := [], cap := false }

/-- `Generator.output`: `"".join(self.pieces)`. -/
def output (s : GenState) : String :=
  String.join s.pieces

/-- `Generator.refresh`: reset, parse `self.source`, and return the joined
output together with the final object state. -/
def refresh (rands : Nat → Nat) (fuel : Nat) (s : GenState) :
    Except GenError (String × GenState) :=
  match parseNode rands fuel (reset s).source (reset s) with
  | .error e => .error e
  | .ok s1 => .ok (output s1, s1)

/-- The state of a freshly constructed `Generator` just before `refresh`:
grammar loaded and indexed, start source installed. -/
def initState (g : GrammarDoc) (src : Node) : GenState :=
  { grammar := g, refs := buildRefs g, source := src,
    pieces := [], ridx := 0, cap := false }

/-- End-to-end generation from an explicit start rule id: the `Generator`
constructor with `source = '<xref id="..."/>'` followed by `refresh`. -/
def generate (g : GrammarDoc) (startId : String) (rands : Nat → Nat)
    (fuel : Nat) : Except GenError String :=
  match refresh rands fuel (initState g (.xref startId none)) with
  | .error e => .error e
  | .ok (out, _) => .ok out

/-- The argument of `open_anything`: either an object with a `read` method
(already-resolved content) or a string, which may be `-` (stdin), a
filesystem path, or raw document text. -/
inductive Source where
  | stream (content : String)
  | str (s : String)

/-- The readable filesystem, as a path-to-content map; `open(path)` succeeds
exactly on the listed paths. -/
def lookupFile : List (String × String) → String → Option String
  | [], _ => none
  | (p, c) :: rest, q => if p = q then some c else lookupFile rest q

/-- `open_anything`: pass a stream through; map `-` to stdin; try to open a
string as a path; on `IOError`/`OSError` fall back to treating the string
itself as the content (`io.StringIO(str(source))`).  Note that this function
is total: no input makes resolution fail. -/
def openAnything (fs : List (String × String)) (stdin : String) :
    Source → String
  | .stream c => c
  | .str s =>
      if s = "-" then stdin
      else
        match lookupFile fs s with
        | some content => content
        | none => s

/-- The load-time failure taxonomy of the specification. -/
inductive LoadError where
  | grammarLoadError (msg : String)
  | grammarParseError (msg : String)

/-- `Generator._load`: resolve the source with `open_anything`, then hand the
text to the XML parser (`lxml.etree.parse`, an external library, modelled as
the abstract parameter `xmlParse`); a parser failure (`XMLSyntaxError`) is
the `grammarParseError` outcome. -/
def loadG (xmlParse : String → Except String GrammarDoc)
    (fs : List (String × String)) (stdin : String) (src : Source) :
    Except LoadError GrammarDoc :=
  match xmlParse (openAnything fs stdin src) with
  | .error m => .error (.grammarParseError m)
  | .ok g => .ok g

end PSG

namespace PSG

/-- Random choice yields nothing exactly on the empty sequence. -/
theorem choiceL_eq_none {α : Type} (l : List α) (k : Nat) :
    choiceL l k = none ↔ l = [] := by
  cases l with
  | nil => simp [choiceL]
  | cons a as =>
      simp only [choiceL, List.get?_eq_none]
      constructor
      · intro h
        have hlt : k % (a :: as).length < (a :: as).length :=
          Nat.mod_lt _ (by simp)
        omega
      · intro h; exact absurd h (by simp)

/-- A successful random choice picks an element of the sequence. -/
theorem choiceL_mem {α : Type} {l : List α} {k : Nat} {a : α}
    (h : choiceL l k = some a) : a ∈ l :=
  List.get?_mem h

/-- A standalone candidate is a rule key that is never an xref target. -/
theorem mem_standalone {g : GrammarDoc} {id : String}
    (h : id ∈ standaloneRefs g) :
    id ∈ refKeys g ∧ id ∉ collectXrefIds g := by
  simp only [standaloneRefs, List.mem_filter, Bool.not_eq_true',
    ← Bool.not_eq_true, List.elem_iff] at h
  exact ⟨h.1, h.2⟩

/-- Target ids of a member node occur among the targets of the list. -/
theorem mem_nodesXrefIds {c : Node} {cs : List Node} {id : String}
    (hc : c ∈ cs) (hid : id ∈ nodeXrefIds c) : id ∈ nodesXrefIds cs := by
  induction cs with
  | nil => cases hc
  | cons c' cs' ih =>
      simp only [nodesXrefIds, List.mem_append]
      rcases List.mem_cons.mp hc with h | h
      · subst h; exact Or.inl hid
      · exact Or.inr (ih h)

/-- Every node has positive size. -/
theorem node_sizeOf_pos (n : Node) : 1 ≤ sizeOf n := by
  cases n <;> simp_arith

/-- The fold computes a strict upper bound of the ranks in the list. -/
theorem rank_lt_fold (rank : String → Nat) (l : List String) :
    ∀ id ∈ l, rank id < l.foldr (fun id m => max m (rank id + 1)) 0 := by
  induction l with
  | nil => intro id h; cases h
  | cons a l ih =>
      intro id h
      simp only [List.foldr]
      rcases List.mem_cons.mp h with h | h
      · subst h; omega
      · have := ih id h; omega

/-- Expansion neither reads nor writes the capitalize flag: flipping it in the input state flips it in the result and changes nothing else. -/
theorem parseNode_cap (rands : Nat → Nat) :
    ∀ (fuel : Nat) (n : Node) (s : GenState) (b : Bool),
      parseNode rands fuel n { s with cap := b } =
        (parseNode rands fuel n s).map (fun st => { st with cap := b }) := by
  intro fuel
  induction fuel with
  | zero => intro n s b; rfl
  | succ f ih =>
      have hseq : ∀ (cs : List Node) (s : GenState) (b : Bool),
          runSeq (fun a c => parseNode rands f c a) cs { s with cap := b } =
            (runSeq (fun a c => parseNode rands f c a) cs s).map
              (fun st => { st with cap := b }) := by
        intro cs
        induction cs with
        | nil => intro s b; rfl
        | cons c cs ihc =>
            intro s b
            simp only [runSeq, ih c s b]
            cases h : parseNode rands f c s with
            | error e => simp [Except.map]
            | ok s1 => simp only [Except.map, ihc s1 b]
      intro n s b
      cases n with
      | p text cs =>
          simp only [parseNode]
          exact hseq cs { s with pieces := s.pieces ++ [text.getD ""] } b
      | xref id tl =>
          simp only [parseNode]
          cases hr : dictGet s.refs id with
          | none => simp [Except.map]
          | some r =>
              simp only []
              cases hc : choiceL r.children (rands s.ridx) with
              | none => simp [Except.map]
              | some c =>
                  simp only [ih c { s with ridx := s.ridx + 1 } b]
                  cases hp : parseNode rands f c { s with ridx := s.ridx + 1 } with
                  | error e => simp [Except.map]
                  | ok s2 => simp [Except.map]

/-- Frame property of expansion: a successful parse leaves the grammar, the rule index, the source and the capitalize flag untouched and only appends to the accumulator. -/
theorem parseNode_frame (rands : Nat → Nat) :
    ∀ (fuel : Nat) (n : Node) (s s' : GenState),
      parseNode rands fuel n s = .ok s' →
      s'.grammar = s.grammar ∧ s'.refs = s.refs ∧ s'.source = s.source ∧
        s'.cap = s.cap ∧ ∃ ext, s'.pieces = s.pieces ++ ext := by
  intro fuel
  induction fuel with
  | zero => intro n s s' h; exact absurd h (by simp [parseNode])
  | succ f ih =>
      have hseq : ∀ (cs : List Node) (s s' : GenState),
          runSeq (fun a c => parseNode rands f c a) cs s = .ok s' →
          s'.grammar = s.grammar ∧ s'.refs = s.refs ∧ s'.source = s.source ∧
            s'.cap = s.cap ∧ ∃ ext, s'.pieces = s.pieces ++ ext := by
        intro cs
        induction cs with
        | nil =>
            intro s s' h
            simp only [runSeq, Except.ok.injEq] at h
            subst h
            exact ⟨rfl, rfl, rfl, rfl, [], by simp⟩
        | cons c cs ihc =>
            intro s s' h
            simp only [runSeq] at h
            cases hp : parseNode rands f c s with
            | error e => rw [hp] at h; exact absurd h (by simp)
            | ok s1 =>
                rw [hp] at h
                obtain ⟨h1, h2, h3, h4, ext1, h5⟩ := ih c s s1 hp
                obtain ⟨g1, g2, g3, g4, ext2, g5⟩ := ihc s1 s' h
                exact ⟨g1.trans h1, g2.trans h2, g3.trans h3, g4.trans h4,
                  ext1 ++ ext2, by rw [g5, h5, List.append_assoc]⟩
      intro n s s' h
      cases n with
      | p text cs =>
          simp only [parseNode] at h
          obtain ⟨h1, h2, h3, h4, ext, h5⟩ :=
            hseq cs { s with pieces := s.pieces ++ [text.getD ""] } s' h
          exact ⟨h1, h2, h3, h4, text.getD "" :: ext, by
            rw [h5]; simp⟩
      | xref id tl =>
          simp only [parseNode] at h
          cases hr : dictGet s.refs id with
          | none => simp only [hr] at h; exact absurd h (by simp)
          | some r =>
              simp only [hr] at h
              cases hc : choiceL r.children (rands s.ridx) with
              | none => simp only [hc] at h; exact absurd h (by simp)
              | some c =>
                  simp only [hc] at h
                  cases hp : parseNode rands f c { s with ridx := s.ridx + 1 } with
                  | error e => simp only [hp] at h; exact absurd h (by simp)
                  | ok s2 =>
                      simp only [hp] at h
                      simp only [Except.ok.injEq] at h
                      subst h
                      obtain ⟨h1, h2, h3, h4, ext, h5⟩ :=
                        ih c { s with ridx := s.ridx + 1 } s2 hp
                      exact ⟨h1, h2, h3, h4, ext ++ [tl.getD ""], by
                        simp [h5]⟩

/-- One more unit of fuel does not change a result that did not run out of fuel. -/
theorem parseNode_mono_succ (rands : Nat → Nat) :
    ∀ (fuel : Nat) (n : Node) (s : GenState),
      parseNode rands fuel n s ≠ .error .outOfFuel →
      parseNode rands (fuel + 1) n s = parseNode rands fuel n s := by
  intro fuel
  induction fuel with
  | zero => intro n s h; exact absurd rfl h
  | succ f ih =>
      have hseq : ∀ (cs : List Node) (s : GenState),
          runSeq (fun a c => parseNode rands f c a) cs s ≠ .error .outOfFuel →
          runSeq (fun a c => parseNode rands (f + 1) c a) cs s =
            runSeq (fun a c => parseNode rands f c a) cs s := by
        intro cs
        induction cs with
        | nil => intro s _; rfl
        | cons c cs ihc =>
            intro s h
            simp only [runSeq] at h ⊢
            cases hp : parseNode rands f c s with
            | error e =>
                simp only [hp] at h
                have hne : parseNode rands f c s ≠ .error .outOfFuel := by
                  rw [hp]; intro hcon
                  exact h (by rw [← hcon])
                rw [ih c s hne, hp]
            | ok s1 =>
                simp only [hp] at h
                have hne : parseNode rands f c s ≠ .error .outOfFuel := by
                  rw [hp]; simp
                rw [ih c s hne, hp]
                exact ihc s1 h
      intro n s h
      cases n with
      | p text cs =>
          simp only [parseNode] at h ⊢
          exact hseq cs { s with pieces := s.pieces ++ [text.getD ""] } h
      | xref id tl =>
          simp only [parseNode] at h ⊢
          cases hr : dictGet s.refs id with
          | none => simp only [hr]
          | some r =>
              simp only [hr] at h ⊢
              cases hc : choiceL r.children (rands s.ridx) with
              | none => simp only [hc]
              | some c =>
                  simp only [hc] at h ⊢
                  cases hp : parseNode rands f c { s with ridx := s.ridx + 1 } with
                  | error e =>
                      simp only [hp] at h
                      have hne : parseNode rands f c { s with ridx := s.ridx + 1 } ≠
                          .error .outOfFuel := by
                        rw [hp]; intro hcon
                        exact h (by rw [← hcon])
                      rw [ih c { s with ridx := s.ridx + 1 } hne, hp]
                  | ok s2 =>
                      have hne : parseNode rands f c { s with ridx := s.ridx + 1 } ≠
                          .error .outOfFuel := by
                        rw [hp]; simp
                      rw [ih c { s with ridx := s.ridx + 1 } hne, hp]

/-- Fuel monotonicity: any larger fuel yields the same result, provided the smaller fuel did not run out. -/
theorem parseNode_mono_le (rands : Nat → Nat) {fuel fuel' : Nat}
    (hle : fuel ≤ fuel') (n : Node) (s : GenState)
    (h : parseNode rands fuel n s ≠ .error .outOfFuel) :
    parseNode rands fuel' n s = parseNode rands fuel n s := by
  induction fuel' with
  | zero =>
      have : fuel = 0 := by omega
      subst this; rfl
  | succ f' ihf =>
      rcases Nat.lt_or_ge fuel (f' + 1) with hlt | hge
      · have hle' : fuel ≤ f' := by omega
        have heq := ihf hle'
        rw [← heq] at h
        rw [parseNode_mono_succ rands f' n s h, heq]
      · have : fuel = f' + 1 := by omega
        subst this; rfl

/-- Fuel monotonicity for the sequential expansion of sibling nodes. -/
theorem runSeq_mono_le (rands : Nat → Nat) {fuel fuel' : Nat}
    (hle : fuel ≤ fuel') :
    ∀ (cs : List Node) (s : GenState),
      runSeq (fun a c => parseNode rands fuel c a) cs s ≠ .error .outOfFuel →
      runSeq (fun a c => parseNode rands fuel' c a) cs s =
        runSeq (fun a c => parseNode rands fuel c a) cs s := by
  intro cs
  induction cs with
  | nil => intro s _; rfl
  | cons c cs ih =>
      intro s h
      simp only [runSeq] at h ⊢
      cases hp : parseNode rands fuel c s with
      | error e =>
          simp only [hp] at h
          have hne : parseNode rands fuel c s ≠ .error .outOfFuel := by
            rw [hp]; intro hcon; exact h (by rw [← hcon])
          rw [parseNode_mono_le rands hle c s hne, hp]
      | ok s1 =>
          simp only [hp] at h
          have hne : parseNode rands fuel c s ≠ .error .outOfFuel := by
            rw [hp]; simp
          rw [parseNode_mono_le rands hle c s hne, hp]
          exact ih s1 h

/-- Main termination argument: if `rank` strictly decreases along the reference edges of the rule index, then every node whose present targets rank below `k` can be fully expanded with some finite fuel.  Strong induction on the rank bound, with an inner induction on the structural size of the node. -/
theorem parse_terminates_aux (rands : Nat → Nat) (rank : String → Nat)
    (refs : List (String × Rule))
    (hacyc : ∀ a b r, dictGet refs a = some r →
      b ∈ nodesXrefIds r.children → rank b < rank a) :
    ∀ (k : Nat) (n : Node) (s : GenState), s.refs = refs →
      (∀ id, id ∈ nodeXrefIds n → dictGet refs id ≠ none → rank id < k) →
      ∃ fuel, parseNode rands fuel n s ≠ .error .outOfFuel := by
  intro k
  induction k using Nat.strong_induction_on with
  | _ k ihk =>
  have inner : ∀ (N : Nat),
      (∀ (n : Node) (s : GenState), sizeOf n ≤ N → s.refs = refs →
        (∀ id, id ∈ nodeXrefIds n → dictGet refs id ≠ none → rank id < k) →
        ∃ fuel, parseNode rands fuel n s ≠ .error .outOfFuel) ∧
      (∀ (cs : List Node) (s : GenState), sizeOf cs ≤ N → s.refs = refs →
        (∀ id, id ∈ nodesXrefIds cs → dictGet refs id ≠ none → rank id < k) →
        ∃ fuel,
          runSeq (fun a c => parseNode rands fuel c a) cs s ≠
            .error .outOfFuel) := by
    intro N
    induction N with
    | zero =>
        constructor
        · intro n s hsz
          exact absurd hsz (by have := node_sizeOf_pos n; omega)
        · intro cs s hsz
          exact absurd hsz (by cases cs <;> simp_arith)
    | succ N ihN =>
        constructor
        · intro n s hsz hrefs hbelow
          cases n with
          | xref id tl =>
              cases hget : dictGet refs id with
              | none =>
                  refine ⟨1, ?_⟩
                  simp [parseNode, hrefs, hget]
              | some r =>
                  have hrank : rank id < k :=
                    hbelow id (by simp [nodeXrefIds]) (by rw [hget]; simp)
                  cases hch : choiceL r.children (rands s.ridx) with
                  | none =>
                      refine ⟨1, ?_⟩
                      simp [parseNode, hrefs, hget, hch]
                  | some c =>
                      have hcmem := choiceL_mem hch
                      have hgets : dictGet s.refs id = some r := by
                        rw [hrefs]; exact hget
                      have hbelow' : ∀ id', id' ∈ nodeXrefIds c →
                          dictGet refs id' ≠ none → rank id' < rank id := by
                        intro id' hid' _
                        exact hacyc id id' r hget (mem_nodesXrefIds hcmem hid')
                      obtain ⟨f0, hf0⟩ := ihk (rank id) hrank c
                        { s with ridx := s.ridx + 1 } (by simpa using hrefs)
                        hbelow'
                      refine ⟨f0 + 1, ?_⟩
                      cases hp : parseNode rands f0 c
                          { s with ridx := s.ridx + 1 } with
                      | error e =>
                          rw [hp] at hf0
                          simp only [parseNode, hgets, hch, hp]
                          exact hf0
                      | ok s2 =>
                          simp only [parseNode, hgets, hch, hp]
                          simp
          | p text cs =>
              have hsz' : sizeOf cs ≤ N := by
                simp_arith at hsz; omega
              obtain ⟨f0, hf0⟩ := ihN.2 cs
                { s with pieces := s.pieces ++ [text.getD ""] } hsz'
                (by simpa using hrefs) (by simpa [nodeXrefIds] using hbelow)
              exact ⟨f0 + 1, by simpa [parseNode] using hf0⟩
        · intro cs s hsz hrefs hbelow
          cases cs with
          | nil => exact ⟨0, by simp [runSeq]⟩
          | cons c cs' =>
              have hszc : sizeOf c ≤ N := by simp_arith at hsz; omega
              have hszcs : sizeOf cs' ≤ N := by simp_arith at hsz; omega
              have hbelowc : ∀ id, id ∈ nodeXrefIds c →
                  dictGet refs id ≠ none → rank id < k := by
                intro id hid
                exact hbelow id
                  (by simp only [nodesXrefIds, List.mem_append]; exact Or.inl hid)
              have hbelowcs : ∀ id, id ∈ nodesXrefIds cs' →
                  dictGet refs id ≠ none → rank id < k := by
                intro id hid
                exact hbelow id
                  (by simp only [nodesXrefIds, List.mem_append]; exact Or.inr hid)
              obtain ⟨f1, hf1⟩ := ihN.1 c s hszc hrefs hbelowc
              cases hp : parseNode rands f1 c s with
              | error e =>
                  refine ⟨f1, ?_⟩
                  rw [hp] at hf1
                  simp only [runSeq, hp]
                  exact hf1
              | ok s1 =>
                  have hrefs1 : s1.refs = refs := by
                    have := (parseNode_frame rands f1 c s s1 hp).2.1
                    rw [this, hrefs]
                  obtain ⟨f2, hf2⟩ := ihN.2 cs' s1 hszcs hrefs1 hbelowcs
                  refine ⟨max f1 f2, ?_⟩
                  have hne1 : parseNode rands f1 c s ≠ .error .outOfFuel := by
                    rw [hp]; simp
                  have hm1 : parseNode rands (max f1 f2) c s = .ok s1 := by
                    rw [parseNode_mono_le rands (Nat.le_max_left f1 f2) c s hne1,
                      hp]
                  simp only [runSeq, hm1]
                  rw [runSeq_mono_le rands (Nat.le_max_right f1 f2) cs' s1 hf2]
                  exact hf2
  intro n s hrefs hbelow
  exact (inner (sizeOf n)).1 n s (le_refl _) hrefs hbelow

/-- Lookup after a dict assignment: the assigned key maps to the new value, all others are unchanged. -/
theorem dictGet_insertRef (d : List (String × Rule)) (k : String) (v : Rule)
    (q : String) :
    dictGet (insertRef d k v) q = if k = q then some v else dictGet d q := by
  induction d with
  | nil => simp [insertRef, dictGet]
  | cons kv rest ih =>
      obtain ⟨k', v'⟩ := kv
      by_cases hk : k' = k
      · subst hk
        simp only [insertRef, if_pos rfl, dictGet]
        by_cases hq : k' = q
        · subst hq; simp
        · simp [hq]
      · simp only [insertRef, if_neg hk, dictGet]
        by_cases hq : k' = q
        · subst hq
          have : ¬ k = k' := fun h => hk h.symm
          simp [this]
        · simp [hq, ih]

/-- A dict assignment keeps the key list unless the key is new, in which case it is appended. -/
theorem keys_insertRef (d : List (String × Rule)) (k : String) (v : Rule) :
    (insertRef d k v).map Prod.fst =
      if k ∈ d.map Prod.fst then d.map Prod.fst else d.map Prod.fst ++ [k] := by
  induction d with
  | nil => simp [insertRef]
  | cons kv rest ih =>
      obtain ⟨k', v'⟩ := kv
      by_cases hk : k' = k
      · subst hk; simp [insertRef]
      · simp only [insertRef, if_neg hk, List.map_cons, List.mem_cons]
        have hne : ¬ k = k' := fun h => hk h.symm
        by_cases hmem : k ∈ rest.map Prod.fst
        · simp [ih, hmem, hne]
        · simp [ih, hmem, hne]

/-- Dict assignment preserves distinctness of the keys. -/
theorem nodup_keys_insertRef (d : List (String × Rule)) (k : String) (v : Rule)
    (h : (d.map Prod.fst).Nodup) : ((insertRef d k v).map Prod.fst).Nodup := by
  rw [keys_insertRef]
  by_cases hmem : k ∈ d.map Prod.fst
  · simp [hmem, h]
  · simp [hmem, List.nodup_append, h]

/-- A binding after a dict assignment is either an old binding or the new one. -/
theorem mem_insertRef (d : List (String × Rule)) (k0 : String) (v : Rule) :
    ∀ (k : String) (r : Rule), (k, r) ∈ insertRef d k0 v →
      (k, r) ∈ d ∨ (k = k0 ∧ r = v) := by
  induction d with
  | nil =>
      intro k r h
      simp only [insertRef, List.mem_singleton, Prod.mk.injEq] at h
      exact Or.inr h
  | cons kv rest ih =>
      intro k r h
      obtain ⟨k', v'⟩ := kv
      by_cases hk : k' = k0
      · subst hk
        rw [show insertRef ((k', v') :: rest) k' v = (k', v) :: rest from by
          simp [insertRef]] at h
        rcases List.mem_cons.mp h with h | h
        · rcases Prod.mk.injEq .. ▸ h with ⟨h1, h2⟩
          exact Or.inr ⟨h1, h2⟩
        · exact Or.inl (List.mem_cons_of_mem _ h)
      · rw [show insertRef ((k', v') :: rest) k0 v =
              (k', v') :: insertRef rest k0 v from by simp [insertRef, hk]] at h
        rcases List.mem_cons.mp h with h | h
        · exact Or.inl (List.mem_cons.mpr (Or.inl h))
        · rcases ih k r h with h' | h'
          · exact Or.inl (List.mem_cons_of_mem _ h')
          · exact Or.inr h'

/-- The rule index built by `load_grammar` has pairwise distinct keys. -/
theorem buildRefs_keys_nodup_aux (g : GrammarDoc) :
    ∀ d : List (String × Rule), (d.map Prod.fst).Nodup →
      (((g.foldl (fun d r => insertRef d r.id r) d)).map Prod.fst).Nodup := by
  induction g with
  | nil => intro d h; simpa using h
  | cons a g' ih =>
      intro d h
      exact ih (insertRef d a.id a) (nodup_keys_insertRef d a.id a h)

/-- Every binding of the rule index comes from a rule of the document with that id. -/
theorem buildRefs_mem_aux (g : GrammarDoc) :
    ∀ (d : List (String × Rule)) (k : String) (r : Rule),
      (k, r) ∈ g.foldl (fun d r => insertRef d r.id r) d →
      (k, r) ∈ d ∨ (r ∈ g ∧ r.id = k) := by
  induction g with
  | nil => intro d k r h; exact Or.inl h
  | cons a g' ih =>
      intro d k r h
      rcases ih (insertRef d a.id a) k r h with h' | h'
      · rcases mem_insertRef d a.id a k r h' with h'' | h''
        · exact Or.inl h''
        · exact Or.inr ⟨by rw [h''.2]; exact List.mem_cons_self a g', by
            rw [h''.2, h''.1]⟩
      · exact Or.inr ⟨List.mem_cons_of_mem a h'.1, h'.2⟩

/-- Lookup in the rule index finds the last rule of the document with the queried id (dict assignment overwrites). -/
theorem dictGet_buildRefs_aux (g : GrammarDoc) (id : String) :
    ∀ d : List (String × Rule),
      dictGet (g.foldl (fun d r => insertRef d r.id r) d) id =
        (g.reverse.find? (fun r => r.id == id)).or (dictGet d id) := by
  induction g with
  | nil => intro d; simp
  | cons a g' ih =>
      intro d
      simp only [List.foldl_cons, ih, List.reverse_cons, List.find?_append]
      rw [dictGet_insertRef]
      by_cases ha : a.id = id
      · simp only [List.find?_singleton, ha, beq_self_eq_true, if_pos rfl,
          cond_true]
        cases hf : g'.reverse.find? (fun r => r.id == id) <;> simp [Option.or]
      · have : (a.id == id) = false := beq_eq_false_iff_ne.mpr ha
        simp only [List.find?_singleton, this, cond_false, if_neg ha]
        cases hf : g'.reverse.find? (fun r => r.id == id) <;> simp [Option.or]

end PSG
namespace PSG

/-- Joining a fragment with the empty trailing fragment gives the fragment. -/
theorem join_pair (t : String) : String.join [t, ""] = t := by
  cases t with
  | mk data => simp [String.join, List.foldl]

/-- C1: for a grammar with exactly one rule whose single paragraph holds only
literal text (no xref children), `generate` started at that rule returns
exactly that literal text, for every behaviour of the random source and every
sufficient recursion depth (two levels: the start xref and the paragraph). -/
theorem generate_single_literal_rule (rid t : String) (rands : Nat → Nat)
    (fuel : Nat) (h : 2 ≤ fuel) :
    generate [⟨rid, [Node.p (some t) []]⟩] rid rands fuel = .ok t := by
  obtain ⟨f, rfl⟩ : ∃ f, fuel = f + 2 := ⟨fuel - 2, by omega⟩
  simp [generate, refresh, reset, initState, parseNode, buildRefs, insertRef,
    dictGet, choiceL, runSeq, output, Nat.mod_one, List.foldl, join_pair]

/-- Witness for C1 at a concrete grammar. -/
theorem generate_single_literal_rule_witness :
    2 ≤ 2 ∧
    generate [⟨"r", [Node.p (some "hello") []]⟩] "r" (fun _ => 0) 2 =
      .ok "hello" :=
  ⟨by decide, generate_single_literal_rule "r" "hello" (fun _ => 0) 2 (by decide)⟩

/-- C2: `get_default_source` only ever returns a rule id that is not the
target of any xref anywhere in the grammar, and it fails (`ValueError`,
the spec's `NoStandaloneRuleError`) exactly when every rule id is an xref
target, i.e. when the difference set is empty. -/
theorem getDefaultSource_standalone (g : GrammarDoc) (k : Nat) :
    (∀ id, getDefaultSource g k = .ok id →
       id ∈ refKeys g ∧ id ∉ collectXrefIds g)
    ∧ (getDefaultSource g k = .error .noStandaloneRule ↔
       ∀ id ∈ refKeys g, id ∈ collectXrefIds g) := by
  cases hc : choiceL (standaloneRefs g) k with
  | none =>
      have hnil : standaloneRefs g = [] := (choiceL_eq_none _ _).mp hc
      simp only [standaloneRefs, List.filter_eq_nil_iff, Bool.not_eq_true',
        ← Bool.not_eq_true, List.elem_iff] at hnil
      constructor
      · intro id h
        simp [getDefaultSource, hc] at h
      · simp only [getDefaultSource, hc, true_iff]
        intro id hid
        have := hnil id hid
        simpa using this
  | some id' =>
      have hm := mem_standalone (choiceL_mem hc)
      constructor
      · intro id h
        simp only [getDefaultSource, hc, Except.ok.injEq] at h
        subst h
        exact hm
      · simp only [getDefaultSource, hc]
        constructor
        · intro h; exact absurd h (by simp)
        · intro hall
          exact absurd (hall id' hm.1) hm.2

/-- Witness for C2 at a concrete two-rule grammar where only `root` is
standalone. -/
theorem getDefaultSource_standalone_witness :
    "root" ∈ refKeys [⟨"root", [Node.p none [Node.xref "leaf" none]]⟩,
        ⟨"leaf", [Node.p (some "x") []]⟩] ∧
    "root" ∉ collectXrefIds [⟨"root", [Node.p none [Node.xref "leaf" none]]⟩,
        ⟨"leaf", [Node.p (some "x") []]⟩] :=
  (getDefaultSource_standalone
    [⟨"root", [Node.p none [Node.xref "leaf" none]]⟩,
     ⟨"leaf", [Node.p (some "x") []]⟩] 0).1 "root" rfl

/-- C3: `parse_xref` appends the reference's trailing tail text to the
accumulator after the recursively expanded content of the referenced rule,
never before: the final state is the recursive result with the tail appended
at the very end. -/
theorem parse_xref_tail_after (rands : Nat → Nat) (fuel : Nat) (id : String)
    (tl : Option String) (s : GenState) (r : Rule) (c : Node) (s2 : GenState)
    (hr : dictGet s.refs id = some r)
    (hc : choiceL r.children (rands s.ridx) = some c)
    (hp : parseNode rands fuel c { s with ridx := s.ridx + 1 } = .ok s2) :
    parseNode rands (fuel + 1) (.xref id tl) s =
      .ok { s2 with pieces := s2.pieces ++ [tl.getD ""] } := by
  simp [parseNode, hr, hc, hp]

/-- Witness for C3: the spec's example — rule `x` is the paragraph `hi`, the
reference has tail `!`, and the output is `hi!` (tail after content). -/
theorem parse_xref_tail_after_witness :
    parseNode (fun _ => 0) 2 (Node.xref "x" (some "!"))
      (initState [⟨"x", [Node.p (some "hi") []]⟩] (Node.xref "x" (some "!"))) =
      .ok { initState [⟨"x", [Node.p (some "hi") []]⟩]
              (Node.xref "x" (some "!")) with
            ridx := 1, pieces := ["hi", "!"] } ∧
    output { initState [⟨"x", [Node.p (some "hi") []]⟩]
              (Node.xref "x" (some "!")) with
             ridx := 1, pieces := ["hi", "!"] } = "hi!" :=
  ⟨parse_xref_tail_after (fun _ => 0) 1 "x" (some "!")
      (initState [⟨"x", [Node.p (some "hi") []]⟩] (Node.xref "x" (some "!")))
      ⟨"x", [Node.p (some "hi") []]⟩ (Node.p (some "hi") [])
      { initState [⟨"x", [Node.p (some "hi") []]⟩]
          (Node.xref "x" (some "!")) with ridx := 1, pieces := ["hi"] }
      rfl rfl rfl,
    rfl⟩

/-- C4 counterexample: `load_grammar` performs no validation, so a rule with
zero paragraphs loads successfully — a present id whose alternatives
sequence is empty, contradicting the claimed loader guarantee. -/
theorem alternatives_nonempty_counterexample :
    dictGet (buildRefs [⟨"a", []⟩]) "a" = some ⟨"a", []⟩ ∧
    (Rule.mk "a" []).children = [] := ⟨rfl, rfl⟩

/-- C4 amended: expanding a reference to an id absent from the rule index
fails with the unknown-rule error (`AttributeError` in the code); for a
present id the rule's own child list is used as the alternatives, and when
that list is empty expansion fails with the empty-choice error
(`IndexError`), not with the unknown-rule error — the loader does not
guarantee non-emptiness. -/
theorem alternatives_lookup_amended (rands : Nat → Nat) (fuel : Nat)
    (id : String) (tl : Option String) (s : GenState) :
    (dictGet s.refs id = none →
      parseNode rands (fuel + 1) (.xref id tl) s = .error (.unknownRule id))
    ∧ (∀ r, dictGet s.refs id = some r → r.children = [] →
      parseNode rands (fuel + 1) (.xref id tl) s = .error .emptyChoice) := by
  constructor
  · intro h; simp [parseNode, h]
  · intro r hr hch
    simp [parseNode, hr, hch, choiceL]

/-- Witness for the amended C4 at a concrete loaded grammar. -/
theorem alternatives_lookup_amended_witness :
    parseNode (fun _ => 0) 1 (Node.xref "zz" none)
      (initState [⟨"a", ([] : List Node)⟩] (Node.xref "a" none)) =
      .error (.unknownRule "zz") ∧
    parseNode (fun _ => 0) 1 (Node.xref "a" none)
      (initState [⟨"a", ([] : List Node)⟩] (Node.xref "a" none)) =
      .error .emptyChoice :=
  ⟨(alternatives_lookup_amended (fun _ => 0) 0 "zz" none
      (initState [⟨"a", ([] : List Node)⟩] (Node.xref "a" none))).1 rfl,
   (alternatives_lookup_amended (fun _ => 0) 0 "a" none
      (initState [⟨"a", ([] : List Node)⟩] (Node.xref "a" none))).2
      ⟨"a", []⟩ rfl rfl⟩

/-- C5 counterexample: a path that resolves to no readable file is not a
load failure — `open_anything` silently falls back to treating the locator
string itself as document content, which then surfaces as a parse failure
(here with a parser that rejects the text), not as `GrammarLoadError`. -/
theorem load_badpath_counterexample :
    loadG (fun s => Except.error s) [] "" (.str "/missing/grammar.xml") =
      .error (.grammarParseError "/missing/grammar.xml") := rfl

/-- C5 amended: loading never produces `GrammarLoadError` — source
resolution is total (a string that is not `-` and not an openable path is
passed through verbatim as content) — so the only load-time failure mode is
the parse error, which occurs exactly when the XML parser rejects the
resolved text. -/
theorem load_failure_modes_amended (xmlParse : String → Except String GrammarDoc)
    (fs : List (String × String)) (stdin : String) :
    (∀ src m, loadG xmlParse fs stdin src ≠ .error (.grammarLoadError m)) ∧
    (∀ s, s ≠ "-" → lookupFile fs s = none →
      openAnything fs stdin (.str s) = s) ∧
    (∀ src m, loadG xmlParse fs stdin src = .error (.grammarParseError m) ↔
      xmlParse (openAnything fs stdin src) = .error m) := by
  refine ⟨?_, ?_, ?_⟩
  · intro src m h
    unfold loadG at h
    cases hp : xmlParse (openAnything fs stdin src) with
    | error m' => rw [hp] at h; simp at h
    | ok g => rw [hp] at h; simp at h
  · intro s hdash hfs
    simp [openAnything, hdash, hfs]
  · intro src m
    unfold loadG
    cases hp : xmlParse (openAnything fs stdin src) with
    | error m' => simp
    | ok g => simp

/-- Witness for the amended C5: the unresolvable path falls through to its
own text, and no load error is produced. -/
theorem load_failure_modes_amended_witness :
    openAnything [] "" (.str "/nofile.xml") = "/nofile.xml" ∧
    loadG (fun s => Except.error s) [] "" (.str "/nofile.xml") ≠
      .error (.grammarLoadError "/nofile.xml") :=
  ⟨(load_failure_modes_amended (fun s => Except.error s) [] "").2.1
      "/nofile.xml" (by decide) rfl,
   (load_failure_modes_amended (fun s => Except.error s) [] "").1
      (.str "/nofile.xml") "/nofile.xml"⟩

end PSG

namespace PSG

/-- C6: whenever the reference graph of the rule index is acyclic — witnessed
by a rank function that strictly decreases from a rule to the targets of the
xrefs in its body — every expansion terminates: some finite recursion depth
(fuel) suffices for `parse` and for `refresh`, and any deeper stack gives the
identical result (the needed depth is the reference-nesting depth of the
expansion, reflected by the fuel index of the interpreter). -/
theorem parse_terminates_on_acyclic (rands : Nat → Nat)
    (rank : String → Nat) (s : GenState)
    (hacyc : ∀ a b r, dictGet s.refs a = some r →
      b ∈ nodesXrefIds r.children → rank b < rank a) :
    (∀ n : Node, ∃ fuel, parseNode rands fuel n s ≠ .error .outOfFuel) ∧
    (∃ fuel, refresh rands fuel s ≠ .error .outOfFuel) ∧
    (∀ (n : Node) (fuel fuel' : Nat), fuel ≤ fuel' →
      parseNode rands fuel n s ≠ .error .outOfFuel →
      parseNode rands fuel' n s = parseNode rands fuel n s) := by
  have hterm : ∀ (s' : GenState), s'.refs = s.refs → ∀ n : Node,
      ∃ fuel, parseNode rands fuel n s' ≠ .error .outOfFuel := by
    intro s' hr n
    exact parse_terminates_aux rands rank s.refs hacyc
      ((nodeXrefIds n).foldr (fun id m => max m (rank id + 1)) 0) n s' hr
      (fun id hid _ => rank_lt_fold rank (nodeXrefIds n) id hid)
  refine ⟨hterm s rfl, ?_,
    fun n fuel fuel' hle h => parseNode_mono_le rands hle n s h⟩
  obtain ⟨fuel, hf⟩ := hterm (reset s) rfl ((reset s).source)
  refine ⟨fuel, ?_⟩
  unfold refresh
  cases hp : parseNode rands fuel (reset s).source (reset s) with
  | error e =>
      rw [hp] at hf
      intro hcon
      simp only [Except.error.injEq] at hcon
      exact hf (by rw [hcon])
  | ok s1 => simp

/-- Witness for C6 at a one-rule grammar with no references (rank constantly
zero). -/
theorem parse_terminates_on_acyclic_witness :
    ∃ fuel, parseNode (fun _ => 0) fuel (Node.xref "r" none)
      (initState [⟨"r", [Node.p (some "hello") []]⟩] (Node.xref "r" none)) ≠
      Except.error GenError.outOfFuel :=
  (parse_terminates_on_acyclic (fun _ => 0) (fun _ => 0)
    (initState [⟨"r", [Node.p (some "hello") []]⟩] (Node.xref "r" none))
    (by
      intro a b r h hb
      exfalso
      by_cases ha : "r" = a
      · simp only [initState, buildRefs, List.foldl, insertRef, dictGet,
          if_pos ha, Option.some.injEq] at h
        subst h
        simp [nodesXrefIds, nodeXrefIds] at hb
      · simp [initState, buildRefs, List.foldl, insertRef, dictGet, ha] at h)).1
    (Node.xref "r" none)

/-- C7 counterexample: two distinct rules with the same id load without
error, and the second silently overwrites the first in the rule index — the
loaded mapping has merged/dropped a rule, so load does not enforce the
uniqueness invariant the claim states. -/
theorem rule_uniqueness_counterexample :
    buildRefs [⟨"a", [Node.p (some "one") []]⟩,
        ⟨"a", [Node.p (some "two") []]⟩] =
      [("a", ⟨"a", [Node.p (some "two") []]⟩)] ∧
    Node.p (some "one") ([] : List Node) ≠ Node.p (some "two") [] := by
  constructor
  · rfl
  · simp

/-- C7 amended: uniqueness holds of the loaded index, not of the document —
the rule index built by `load_grammar` binds each id at most once (its keys
are pairwise distinct), and every binding maps an id to a rule of the
document carrying exactly that id; duplicate-id rules are silently collapsed
to the last one rather than rejected. -/
theorem rule_index_amended (g : GrammarDoc) :
    ((buildRefs g).map Prod.fst).Nodup ∧
    (∀ k r, (k, r) ∈ buildRefs g → r ∈ g ∧ r.id = k) := by
  constructor
  · exact buildRefs_keys_nodup_aux g [] (by simp)
  · intro k r h
    rcases buildRefs_mem_aux g [] k r h with h' | h'
    · cases h'
    · exact h'

/-- Witness for the amended C7 at the duplicate-id grammar. -/
theorem rule_index_amended_witness :
    ((buildRefs [⟨"a", [Node.p (some "one") []]⟩,
        ⟨"a", [Node.p (some "two") []]⟩]).map Prod.fst).Nodup ∧
    ((⟨"a", [Node.p (some "two") []]⟩ : Rule) ∈
        ([⟨"a", [Node.p (some "one") []]⟩,
          ⟨"a", [Node.p (some "two") []]⟩] : GrammarDoc) ∧
      (Rule.mk "a" [Node.p (some "two") []]).id = "a") :=
  ⟨(rule_index_amended [⟨"a", [Node.p (some "one") []]⟩,
      ⟨"a", [Node.p (some "two") []]⟩]).1,
   (rule_index_amended [⟨"a", [Node.p (some "one") []]⟩,
      ⟨"a", [Node.p (some "two") []]⟩]).2 "a"
      ⟨"a", [Node.p (some "two") []]⟩ (by simp [buildRefs, insertRef])⟩

/-- C8: expansion has no side effect beyond the accumulator — a successful
`parse` leaves the grammar, the rule index, the source and the capitalize
flag of the object unchanged and only appends to `pieces`, and a successful
`refresh` leaves grammar, rule index and source unchanged. -/
theorem expansion_no_side_effects (rands : Nat → Nat) (fuel : Nat)
    (s : GenState) :
    (∀ n s', parseNode rands fuel n s = .ok s' →
      s'.grammar = s.grammar ∧ s'.refs = s.refs ∧ s'.source = s.source ∧
      s'.cap = s.cap ∧ ∃ ext, s'.pieces = s.pieces ++ ext) ∧
    (∀ out s', refresh rands fuel s = .ok (out, s') →
      s'.grammar = s.grammar ∧ s'.refs = s.refs ∧ s'.source = s.source) := by
  constructor
  · intro n s' h
    exact parseNode_frame rands fuel n s s' h
  · intro out s' h
    unfold refresh at h
    cases hp : parseNode rands fuel (reset s).source (reset s) with
    | error e => rw [hp] at h; exact absurd h (by simp)
    | ok s1 =>
        rw [hp] at h
        simp only [Except.ok.injEq, Prod.mk.injEq] at h
        obtain ⟨-, rfl⟩ := h
        have hf := parseNode_frame rands fuel (reset s).source (reset s) s1 hp
        exact ⟨hf.1, hf.2.1, hf.2.2.1⟩

/-- Witness for C8 at a concrete expansion. -/
theorem expansion_no_side_effects_witness :
    ({ initState [⟨"w", [Node.p (some "ok") []]⟩] (Node.xref "w" none) with
        ridx := 1, pieces := ["ok", ""] } : GenState).grammar =
      (initState [⟨"w", [Node.p (some "ok") []]⟩] (Node.xref "w" none)).grammar ∧
    ({ initState [⟨"w", [Node.p (some "ok") []]⟩] (Node.xref "w" none) with
        ridx := 1, pieces := ["ok", ""] } : GenState).refs =
      (initState [⟨"w", [Node.p (some "ok") []]⟩] (Node.xref "w" none)).refs ∧
    ({ initState [⟨"w", [Node.p (some "ok") []]⟩] (Node.xref "w" none) with
        ridx := 1, pieces := ["ok", ""] } : GenState).source =
      (initState [⟨"w", [Node.p (some "ok") []]⟩] (Node.xref "w" none)).source ∧
    ({ initState [⟨"w", [Node.p (some "ok") []]⟩] (Node.xref "w" none) with
        ridx := 1, pieces := ["ok", ""] } : GenState).cap =
      (initState [⟨"w", [Node.p (some "ok") []]⟩] (Node.xref "w" none)).cap ∧
    ∃ ext, ({ initState [⟨"w", [Node.p (some "ok") []]⟩] (Node.xref "w" none) with
        ridx := 1, pieces := ["ok", ""] } : GenState).pieces =
      (initState [⟨"w", [Node.p (some "ok") []]⟩] (Node.xref "w" none)).pieces
        ++ ext :=
  (expansion_no_side_effects (fun _ => 0) 2
    (initState [⟨"w", [Node.p (some "ok") []]⟩] (Node.xref "w" none))).1
    (Node.xref "w" none)
    { initState [⟨"w", [Node.p (some "ok") []]⟩] (Node.xref "w" none) with
        ridx := 1, pieces := ["ok", ""] } rfl

/-- C9: the capitalize-next-word flag has no effect on output — `refresh`
gives identical results for object states differing only in the flag (it is
reset to `False` before parsing), and `parse` itself never reads the flag:
flipping it in the input state flips it in the result state and changes
nothing else. -/
theorem capitalize_flag_no_effect (rands : Nat → Nat) (fuel : Nat)
    (s : GenState) (b1 b2 : Bool) :
    refresh rands fuel { s with cap := b1 } =
      refresh rands fuel { s with cap := b2 } ∧
    ∀ n : Node, parseNode rands fuel n { s with cap := b1 } =
      (parseNode rands fuel n { s with cap := b2 }).map
        (fun st => { st with cap := b1 }) := by
  constructor
  · rfl
  · intro n
    rw [parseNode_cap rands fuel n s b1, parseNode_cap rands fuel n s b2]
    cases parseNode rands fuel n s <;> simp [Except.map]

/-- C10: when a document holds two or more top-level rules with the same id,
loading succeeds and the rule index binds that id to the last such rule in
document order — lookup equals a backwards search of the document, which
here finds a rule of the document carrying the queried id. -/
theorem duplicate_rules_last_wins (g : GrammarDoc) (id : String)
    (h : 2 ≤ (g.filter (fun r => r.id == id)).length) :
    dictGet (buildRefs g) id = g.reverse.find? (fun r => r.id == id) ∧
    ∃ r, g.reverse.find? (fun r' => r'.id == id) = some r ∧
      r ∈ g ∧ r.id = id := by
  have hchar : dictGet (buildRefs g) id =
      g.reverse.find? (fun r => r.id == id) := by
    have := dictGet_buildRefs_aux g id []
    simpa [buildRefs, dictGet, Option.or_none] using this
  refine ⟨hchar, ?_⟩
  have hne : (g.filter (fun r => r.id == id)) ≠ [] := by
    intro hnil; rw [hnil] at h; simp at h
  obtain ⟨r0, hr0⟩ := List.exists_mem_of_ne_nil _ hne
  have hr0' := List.mem_filter.mp hr0
  have hsome : ∃ r, g.reverse.find? (fun r' => r'.id == id) = some r := by
    rw [← Option.isSome_iff_exists]
    rw [List.find?_isSome]
    exact ⟨r0, List.mem_reverse.mpr hr0'.1, hr0'.2⟩
  obtain ⟨r, hr⟩ := hsome
  exact ⟨r, hr, List.mem_reverse.mp (List.mem_of_find?_eq_some hr),
    by simpa using List.find?_some hr⟩

/-- Witness for C10 at a duplicate-id grammar. -/
theorem duplicate_rules_last_wins_witness :
    2 ≤ (([⟨"d", [Node.p (some "1") []]⟩, ⟨"d", [Node.p (some "2") []]⟩] :
        GrammarDoc).filter (fun r => r.id == "d")).length ∧
    (dictGet (buildRefs [⟨"d", [Node.p (some "1") []]⟩,
        ⟨"d", [Node.p (some "2") []]⟩]) "d" =
      ([⟨"d", [Node.p (some "1") []]⟩, ⟨"d", [Node.p (some "2") []]⟩] :
        GrammarDoc).reverse.find? (fun r => r.id == "d") ∧
    ∃ r, ([⟨"d", [Node.p (some "1") []]⟩, ⟨"d", [Node.p (some "2") []]⟩] :
        GrammarDoc).reverse.find? (fun r' => r'.id == "d") = some r ∧
      r ∈ ([⟨"d", [Node.p (some "1") []]⟩, ⟨"d", [Node.p (some "2") []]⟩] :
        GrammarDoc) ∧ r.id = "d") :=
  ⟨by decide,
   duplicate_rules_last_wins
     [⟨"d", [Node.p (some "1") []]⟩, ⟨"d", [Node.p (some "2") []]⟩] "d"
     (by decide)⟩

end PSG
